import Mathlib

/-!
Verification of the smoldtb flattened-device-tree parser (src/smoldtb.c,
src/smoldtb.h) against its natural-language specification.

Shallow embedding conventions:

* C byte memory is modelled as `List Nat` (one entry per byte).  The
  structure block and the strings block of the blob are given as such lists;
  a big-endian 32-bit cell read (`be32(state.cells[i])` in the source) is
  `cellAt bs i`, which combines the four bytes at byte offset `4*i`.
* A C string (`const char*` into the blob) is modelled by the list of its
  bytes up to, and excluding, the first NUL terminator; `readCStr` produces
  exactly that list, so the modelled strings contain no interior zero.
* Node and property structs live in bump-allocated tables; a C pointer to a
  node is identified with its allocation index (`DNode.idx`), exactly the
  index the C bump allocator hands out.
* The singly linked `child`/`sibling` chain of a node is modelled by the
  list `DNode.children` whose head is `node->child` and whose successive
  elements follow the `sibling` pointers; likewise `DNode.props` models the
  `props`/`next` chain.  Prepending a child to the chain is `List.cons`.
* In addition to the chain fields the parse records two ghost fields that
  the C code does not store but that are determined by its execution order:
  `propsSeq` (the node's properties in the order they were parsed, i.e.
  blob order) and `childSeq` (the children in blob order, each paired with
  the list of the node's own properties that had been parsed before that
  child's BEGIN_NODE token).  They are appended exactly where the C code
  prepends to the corresponding chain, so they are the blob-order mirror of
  the chains.  Similarly `PState.phWrites` records, in execution order, the
  stores `state.handle_lookup[handle] = node` performed by
  `check_for_special_prop`, and `PState.rootSeq` records the top-level
  nodes in the order `dtb_init`'s loop produced them.
* Undefined behaviour of the C abstract machine (dereferencing NULL,
  writing outside an allocated buffer, using an uninitialised local) is
  modelled as the explicit outcome `PErr.fault`.  Loops and recursion are
  driven by an explicit fuel parameter; exhausted fuel is the distinct
  outcome `PErr.fuelOut`, never identified with any real result.
* The host callbacks `malloc`/`free`/`on_error` are modelled by presence
  flags (`Ops`); an `on_error(msg)` invocation appends `msg` to
  `PState.errors` when the callback is present, exactly where the C code
  guards `if (state.ops.on_error)`.
-/

/-- Byte strings: one `Nat` per byte. -/
abbrev Bytes := List Nat

/-- ASCII byte list of a Lean string literal, used for names in test blobs
and for the string constants of `check_for_special_prop`. -/
def strBytes (s : String) : Bytes := s.data.map Char.toNat

/-- Big-endian 32-bit cell at cell offset `i` of a byte list: models
`be32(state.cells[i])` (the memory read combined with the byte swap of
`be32`).  Bytes beyond the list read as zero. -/
def cellAt (bs : Bytes) (i : Nat) : Nat :=
  bs.getD (4 * i) 0 * 16777216 + bs.getD (4 * i + 1) 0 * 65536 +
    bs.getD (4 * i + 2) 0 * 256 + bs.getD (4 * i + 3) 0

/-- The NUL-terminated C string starting at byte offset `off`: the bytes up
to the first zero. -/
def readCStr (bs : Bytes) (off : Nat) : Bytes :=
  (bs.drop off).takeWhile (fun b => b ≠ 0)

/-- `string_len` of the source: counts bytes up to the terminator, which on
the terminator-free representation is the list length. -/
def string_len (s : Bytes) : Nat := s.length

/-- `strings_eq` of the source: byte-wise comparison that stops at a
mismatch or at a common terminator.  On the terminator-free representation
the common terminator is reached exactly when both lists are exhausted. -/
def strings_eq : Bytes → Bytes → Bool
  | [], [] => true
  | x :: a, y :: b => if x = y then strings_eq a b else false
  | _, _ => false

/-- `strings_eq_bounded(a, b, len)` of the source: compares at most `len`
bytes, succeeding early when both strings terminate together.  Reading a
byte past a list's end yields the terminator 0, as in memory. -/
def strings_eq_bounded : Bytes → Bytes → Nat → Bool
  | _, _, 0 => true
  | a, b, len + 1 =>
    let x := a.headD 0
    let y := b.headD 0
    if x = 0 ∧ y = 0 then true
    else if x = y then strings_eq_bounded a.tail b.tail len
    else false

/-- `string_find_char` of the source; `none` models the `~0u` result.  (The
source scans to the terminator; the representation holds no interior NUL,
so the scan ends at the list's end.) -/
def string_find_char : Bytes → Nat → Option Nat
  | [], _ => none
  | c :: rest, target =>
    if c = target then some 0
    else
      match string_find_char rest target with
      | some i => some (i + 1)
      | none => none

/-- `dtb_align_up` of the source. -/
def dtb_align_up (input alignment : Nat) : Nat :=
  (input + alignment - 1) / alignment * alignment

/-- A parsed property (`struct dtb_prop_t`): `name` points into the strings
block, `length` is the payload byte length, `bytes` are the payload bytes
(the blob bytes from `first_cell` on, taken up to `length`).  `idx` is the
property's bump-allocator index. -/
structure DProp where
  idx : Nat
  name : Bytes
  length : Nat
  bytes : Bytes
deriving Repr, DecidableEq

/-- A parsed node (`struct dtb_node_t`).  `idx` is the node's bump-allocator
index (its identity, standing for the C pointer).  `inhA`/`inhS` are ghost
copies of the `addr_cells`/`size_cells` arguments the node was created with
(step 3 of `parse_node`); `addr_cells`/`size_cells` are the final field
values.  `props` and `children` are the linked chains (head = the struct's
`props`/`child` pointer); `propsSeq`/`childSeq` are the ghost blob-order
sequences described in the file header. -/
inductive DNode where
  | mk (idx : Nat) (name : Bytes) (inhA inhS addr_cells size_cells : Nat)
      (props : List DProp) (children : List DNode)
      (propsSeq : List DProp) (childSeq : List (DNode × List DProp))

def DNode.idx : DNode → Nat
  | .mk i _ _ _ _ _ _ _ _ _ => i

def DNode.name : DNode → Bytes
  | .mk _ n _ _ _ _ _ _ _ _ => n

def DNode.inhA : DNode → Nat
  | .mk _ _ a _ _ _ _ _ _ _ => a

def DNode.inhS : DNode → Nat
  | .mk _ _ _ s _ _ _ _ _ _ => s

def DNode.addr_cells : DNode → Nat
  | .mk _ _ _ _ a _ _ _ _ _ => a

def DNode.size_cells : DNode → Nat
  | .mk _ _ _ _ _ s _ _ _ _ => s

def DNode.props : DNode → List DProp
  | .mk _ _ _ _ _ _ p _ _ _ => p

def DNode.children : DNode → List DNode
  | .mk _ _ _ _ _ _ _ c _ _ => c

def DNode.propsSeq : DNode → List DProp
  | .mk _ _ _ _ _ _ _ _ ps _ => ps

def DNode.childSeq : DNode → List (DNode × List DProp)
  | .mk _ _ _ _ _ _ _ _ _ cs => cs

/-- A throwaway node value used only to state closed theorems about
concrete parses (`List.headD` defaults); never reachable. -/
def dummyNode : DNode := .mk 0 [] 0 0 0 0 [] [] [] []

def dummyProp : DProp := ⟨0, [], 0, []⟩

/-- Presence flags of the host callbacks (`dtb_ops`). -/
structure Ops where
  hasMalloc : Bool
  hasFree : Bool
  hasOnError : Bool
deriving Repr, DecidableEq

/-- All three callbacks supplied. -/
def opsAll : Ops := ⟨true, true, true⟩

/-- Outcomes that are not ordinary returns: `fault` is undefined behaviour
of the C abstract machine; `fuelOut` is exhausted modelling fuel. -/
inductive PErr where
  | fault
  | fuelOut
deriving Repr, DecidableEq

/-- `struct dtb_state` together with the ghost sequences.  `rootsL` is the
chain of top-level nodes starting at `state.root`; `phWrites` and `rootSeq`
are ghost execution-order records (see the file header). -/
structure PState where
  strings : Bytes
  structs : Bytes
  cellCount : Nat
  rootsL : List DNode
  nodeHead : Nat
  nodeMax : Nat
  propHead : Nat
  propMax : Nat
  phWrites : List (Nat × Nat)
  rootSeq : List DNode
  hasBuff : Bool
  errors : List String
  ops : Ops

/-- The all-zero initial value of the global `struct dtb_state state`. -/
def pstate0 : PState :=
  { strings := [], structs := [], cellCount := 0, rootsL := [], nodeHead := 0,
    nodeMax := 0, propHead := 0, propMax := 0, phWrites := [], rootSeq := [],
    hasBuff := false, errors := [], ops := ⟨false, false, false⟩ }

/-- An FDT blob, abstracted to the header fields the core reads plus the two
blocks it addresses through the header offsets.  `magic` is the decoded
(big-endian-read) magic field; `sizeStructs` is the decoded `size_structs`. -/
structure Blob where
  magic : Nat
  sizeStructs : Nat
  structs : Bytes
  strings : Bytes

/-- `on_error` invocation: appends the message iff the callback is present. -/
def emitError (st : PState) (msg : String) : PState :=
  if st.ops.hasOnError then { st with errors := st.errors ++ [msg] } else st

/-- `alloc_node` of the source, off-by-one comparison included: hands out
slot `nodeHead` only while `nodeHead + 1 < nodeMax`. -/
def alloc_node (st : PState) : Option Nat × PState :=
  if st.nodeHead + 1 < st.nodeMax then
    (some st.nodeHead, { st with nodeHead := st.nodeHead + 1 })
  else
    (none, emitError st "Node allocator ran out of space")

/-- `alloc_prop` of the source. -/
def alloc_prop (st : PState) : Option Nat × PState :=
  if st.propHead + 1 < st.propMax then
    (some st.propHead, { st with propHead := st.propHead + 1 })
  else
    (none, emitError st "Property allocator ran out of space")

/-- `free_buffers` of the source (dynamic-allocation build): complains when
`ops.free` is absent, otherwise drops the buffer and zeroes the capacities.
Note the source does not reset `state.root`. -/
def free_buffers (st : PState) : PState :=
  if st.ops.hasFree = false then
    emitError st "ops.free() is NULL while trying to free buffers."
  else
    { st with hasBuff := false, nodeMax := 0, propMax := 0 }

/-- The pre-scan count of `alloc_buffers`: how many of the first `n` cells
decode to token `t`. -/
def countTokens (bs : Bytes) (n t : Nat) : Nat :=
  (List.range n).countP (fun i => cellAt bs i = t)

/-- `alloc_buffers` of the source: sizes the node and property tables from
the pre-scan, acquires one zeroed buffer (so the phandle table starts
empty) and resets the bump heads.  `rootSeq` is the ghost record of the
current parse's top-level nodes, so it starts empty as well. -/
def alloc_buffers (st : PState) : PState :=
  { st with
    nodeMax := countTokens st.structs st.cellCount 1,
    propMax := countTokens st.structs st.cellCount 3,
    nodeHead := 0, propHead := 0, phWrites := [], rootSeq := [],
    hasBuff := true }

/-- `dtb_read_prop_cell_array(prop, 1, &x)` into a single stack local, as
`check_for_special_prop` uses it.  `count = length/4` entries are copied
into the one-word local: zero entries leave the local uninitialised and a
later use of it is undefined; two or more overrun the local.  Only
`length/4 = 1` is defined, and yields the big-endian first cell. -/
def read_one_cell (p : DProp) : Except PErr Nat :=
  if p.length / 4 = 1 then .ok (cellAt p.bytes 0) else .error .fault

/-- `check_for_special_prop` of the source, acting on the current
`addr_cells`/`size_cells` fields `(curA, curS)` of the node under
construction (allocator index `nidx`).  A `phandle`/`linux,phandle` value is
stored into the phandle table, which has `nodeMax` slots: an out-of-range
handle is an out-of-bounds write, i.e. a fault.  `#address-cells` and
`#size-cells` store into the `uint8_t` fields, truncating mod 256. -/
def check_for_special_prop (st : PState) (nidx curA curS : Nat) (p : DProp) :
    Except PErr (Nat × Nat × PState) :=
  let name0 := p.name.headD 0
  if name0 ≠ '#'.toNat ∧ name0 ≠ 'p'.toNat ∧ name0 ≠ 'l'.toNat then
    .ok (curA, curS, st)
  else if string_len p.name = string_len (strBytes "phandle") ∧
      strings_eq p.name (strBytes "phandle") then
    match read_one_cell p with
    | .error e => .error e
    | .ok handle =>
      if handle < st.nodeMax then
        .ok (curA, curS, { st with phWrites := st.phWrites ++ [(handle, nidx)] })
      else .error .fault
  else if string_len p.name = string_len (strBytes "linux,phandle") ∧
      strings_eq p.name (strBytes "linux,phandle") then
    match read_one_cell p with
    | .error e => .error e
    | .ok handle =>
      if handle < st.nodeMax then
        .ok (curA, curS, { st with phWrites := st.phWrites ++ [(handle, nidx)] })
      else .error .fault
  else if string_len p.name = string_len (strBytes "#address-cells") ∧
      strings_eq p.name (strBytes "#address-cells") then
    match read_one_cell p with
    | .error e => .error e
    | .ok cells => .ok (cells % 256, curS, st)
  else if string_len p.name = string_len (strBytes "#size-cells") ∧
      strings_eq p.name (strBytes "#size-cells") then
    match read_one_cell p with
    | .error e => .error e
    | .ok cells => .ok (curA, cells % 256, st)
  else .ok (curA, curS, st)

/-- `parse_prop` of the source.  Returns `none` without advancing when the
cursor is not on a PROP token; otherwise allocates a property (dereferencing
the NULL result of an exhausted allocator is a fault), reads the
`fdt_property` header, points `bytes` at the payload and advances the
cursor past the padded payload. -/
def parse_prop (st : PState) (off : Nat) : Except PErr (Option DProp × Nat × PState) :=
  if cellAt st.structs off ≠ 3 then .ok (none, off, st)
  else
    let off1 := off + 1
    match alloc_prop st with
    | (none, _) => .error .fault
    | (some pidx, st1) =>
      let len := cellAt st.structs off1
      let noff := cellAt st.structs (off1 + 1)
      let pname := readCStr st.strings noff
      let pbytes := (st.structs.drop (4 * (off1 + 2))).take len
      .ok (some ⟨pidx, pname, len, pbytes⟩, off1 + dtb_align_up len 4 / 4 + 2, st1)

/-- A pending activation of the source's mutual recursion: either a
`parse_node(offset, addr_cells, size_cells)` call, or the continuation of
its token loop (step 4) with the accumulated node fields.  In the loop
state, `curA`/`curS` are the node's current `addr_cells`/`size_cells`
fields, `props`/`children` the chains built by prepending, and
`propsSeq`/`childSeq` the ghost blob-order records. -/
inductive ParseCall where
  | nodeCall (st : PState) (off a s : Nat)
  | loopCall (st : PState) (off nidx : Nat) (nm : Bytes)
      (inhA inhS curA curS : Nat) (props : List DProp) (children : List DNode)
      (propsSeq : List DProp) (childSeq : List (DNode × List DProp))

/-- The mutual recursion of `parse_node` and its token loop, driven by one
structurally decreasing fuel (running out is the distinct outcome
`fuelOut`, never a real result).

`nodeCall`: returns `none` without advancing when the cursor is not on
BEGIN_NODE; otherwise allocates a node (dereferencing the NULL result of an
exhausted allocator through `node->name = ...` is a fault), reads the
padded NUL-terminated name, and enters the token loop.

`loopCall`: END_NODE returns the finished node; BEGIN_NODE recurses with
the node's current cell values and links a non-NULL child (prepend to the
chain, ghost-append to `childSeq` together with the properties seen so
far); PROP parses a property, attaches it (prepend, ghost-append) and runs
the special-property recognizer; anything else advances one cell.  Falling
off the end of the structure block reports the missing terminator and
returns NULL. -/
def parseStep : Nat → ParseCall → Except PErr (Option DNode × Nat × PState)
  | 0, _ => .error .fuelOut
  | fuel + 1, .nodeCall st off a s =>
    if cellAt st.structs off ≠ 1 then .ok (none, off, st)
    else
      match alloc_node st with
      | (none, _) => .error .fault
      | (some nidx, st1) =>
        let nm := readCStr st.structs (4 * (off + 1))
        let off1 := off + dtb_align_up (string_len nm + 1) 4 / 4 + 1
        parseStep fuel (.loopCall st1 off1 nidx nm a s a s [] [] [] [])
  | fuel + 1, .loopCall st off nidx nm inhA inhS curA curS props children propsSeq childSeq =>
    if off < st.cellCount then
      let t := cellAt st.structs off
      if t = 2 then
        .ok (some (.mk nidx nm inhA inhS curA curS props children propsSeq childSeq),
          off + 1, st)
      else if t = 1 then
        match parseStep fuel (.nodeCall st off curA curS) with
        | .error e => .error e
        | .ok (none, off1, st1) =>
          parseStep fuel (.loopCall st1 off1 nidx nm inhA inhS curA curS props
            children propsSeq childSeq)
        | .ok (some child, off1, st1) =>
          parseStep fuel (.loopCall st1 off1 nidx nm inhA inhS curA curS props
            (child :: children) propsSeq (childSeq ++ [(child, propsSeq)]))
      else if t = 3 then
        match parse_prop st off with
        | .error e => .error e
        | .ok (none, off1, st1) =>
          parseStep fuel (.loopCall st1 off1 nidx nm inhA inhS curA curS props
            children propsSeq childSeq)
        | .ok (some p, off1, st1) =>
          match check_for_special_prop st1 nidx curA curS p with
          | .error e => .error e
          | .ok (curA1, curS1, st2) =>
            parseStep fuel (.loopCall st2 off1 nidx nm inhA inhS curA1 curS1
              (p :: props) children (propsSeq ++ [p]) childSeq)
      else
        parseStep fuel (.loopCall st (off + 1) nidx nm inhA inhS curA curS props
          children propsSeq childSeq)
    else
      .ok (none, off, emitError st "Node has no terminating tag.")

/-- `parse_node(offset, addr_cells, size_cells)` of the source. -/
def parse_node (fuel : Nat) (st : PState) (off a s : Nat) :
    Except PErr (Option DNode × Nat × PState) :=
  parseStep fuel (.nodeCall st off a s)

/-- The top-level scan of `dtb_init`: `for (i = 0; i < cell_count; i++)`
looking for BEGIN_NODE tokens.  Note the faithful quirk: after `parse_node`
advances the cursor past a finished subtree, the loop's own `i++` skips one
further cell.  Each parsed top-level node is prepended to the root chain
(`sub_root->sibling = state.root; state.root = sub_root;`) and ghost-appended
to `rootSeq`. -/
def init_loop (fuel : Nat) (st : PState) (i : Nat) : Except PErr PState :=
  match fuel with
  | 0 => .error .fuelOut
  | fuel + 1 =>
    if i < st.cellCount then
      if cellAt st.structs i ≠ 1 then init_loop fuel st (i + 1)
      else
        match parse_node fuel st i 2 1 with
        | .error e => .error e
        | .ok (none, i1, st1) => init_loop fuel st1 (i1 + 1)
        | .ok (some n, i1, st1) =>
          init_loop fuel
            { st1 with rootsL := n :: st1.rootsL, rootSeq := st1.rootSeq ++ [n] }
            (i1 + 1)
    else .ok st

/-- `dtb_init` of the source (dynamic-allocation build): installs the ops,
rejects a missing `malloc`, validates the magic number, loads the block
pointers and `cell_count = size_structs / 4` from the header, frees any
previous buffer, sizes and acquires the new one, and scans for top-level
nodes.  On the two early-error paths it returns with only the ops installed
and the error reported — in particular `state.root` keeps its prior value. -/
def dtb_init (fuel : Nat) (b : Blob) (ops : Ops) (st0 : PState) : Except PErr PState :=
  let st := { st0 with ops := ops }
  if ops.hasMalloc = false then .ok (emitError st "ops.malloc is NULL")
  else if b.magic ≠ 3490578157 then
    .ok (emitError st "FDT has incorrect magic number.")
  else
    let st1 :=
      { st with
        structs := b.structs
        cellCount := b.sizeStructs / 4
        strings := b.strings }
    let st2 := if st1.hasBuff then free_buffers st1 else st1
    init_loop fuel (alloc_buffers st2) 0

/-- The phandle table's contents after the recorded sequence of stores
`handle_lookup[w.1] = w.2`, starting from the zeroed (all-NULL) table that
`alloc_buffers` produced.  Looking up returns the stored node's allocation
index. -/
def applyWrites (ws : List (Nat × Nat)) : Nat → Option Nat :=
  ws.foldl (fun t w => fun x => if x = w.1 then some w.2 else t x) (fun _ => none)

/-- `dtb_find_phandle` of the source: bounds-checked read of the phandle
table (`handle_lookup` has `node_alloc_max` slots). -/
def dtb_find_phandle (st : PState) (handle : Nat) : Option Nat :=
  if handle < st.nodeMax then applyWrites st.phWrites handle else none

/-- The bounded child-name length of `find_child_internal`: up to `'@'`, or
the whole name when there is none. -/
def nodeNameBound (nm : Bytes) : Nat :=
  match string_find_char nm '@'.toNat with
  | some i => i
  | none => string_len nm

/-- The `scan` loop of `find_child_internal` over the sibling chain. -/
def find_child_go (chain : List DNode) (nm : Bytes) (bound : Nat) : Option DNode :=
  match chain with
  | [] => none
  | c :: rest =>
    if nodeNameBound c.name = bound ∧ strings_eq_bounded c.name nm bound then some c
    else find_child_go rest nm bound

/-- `find_child_internal(start, name, name_bounds)` of the source. -/
def find_child_internal (start : DNode) (nm : Bytes) (bound : Nat) : Option DNode :=
  find_child_go start.children nm bound

/-- The `while (scan)` loop of `dtb_find`: skip leading slashes, measure the
segment up to the next slash or the terminator, return `scan` on an empty
segment, otherwise descend into the matching child and continue after the
segment.  Each iteration strictly consumes path bytes, so the loop
terminates; the fuel (chosen as `length + 1` by `dtb_find`) is provably
never exhausted. -/
def dtb_find_go : Nat → Option DNode → Bytes → Option DNode
  | 0, _, _ => none
  | _ + 1, none, _ => none
  | fuel + 1, some node, name =>
    let n1 := name.dropWhile (fun c => c = '/'.toNat)
    let segLen :=
      match string_find_char n1 '/'.toNat with
      | some i => i
      | none => string_len n1
    if segLen = 0 then some node
    else dtb_find_go fuel (find_child_internal node n1 segLen) (n1.drop segLen)

/-- `dtb_find` of the source, on a non-NULL path. -/
def dtb_find (st : PState) (name : Bytes) : Option DNode :=
  dtb_find_go (name.length + 1) st.rootsL.head? name

/-- `dtb_find` including its behaviour on a NULL path: when the tree is
empty the loop body never runs and NULL is returned without reading the
path; otherwise the first statement dereferences the path pointer. -/
def dtb_find_api (st : PState) (name : Option Bytes) : Except PErr (Option DNode) :=
  match st.rootsL.head?, name with
  | none, _ => .ok none
  | some _, none => .error .fault
  | some _, some nm => .ok (dtb_find st nm)

/-- `dtb_find_child` of the source: NULL `start` is checked and answered
with NULL; a NULL `name` reaches `string_len(NULL)` and faults. -/
def dtb_find_child (start : Option DNode) (name : Option Bytes) :
    Except PErr (Option DNode) :=
  match start with
  | none => .ok none
  | some s =>
    match name with
    | none => .error .fault
    | some nm => .ok (find_child_internal s nm (string_len nm))

/-- The property-chain scan of `dtb_find_prop`. -/
def find_prop_go (chain : List DProp) (nm : Bytes) : Option DProp :=
  match chain with
  | [] => none
  | p :: rest =>
    if string_len p.name = string_len nm ∧ strings_eq p.name nm then some p
    else find_prop_go rest nm

/-- `dtb_find_prop` of the source: NULL `node` is checked; a NULL `name`
reaches `string_len(NULL)` and faults. -/
def dtb_find_prop (node : Option DNode) (name : Option Bytes) :
    Except PErr (Option DProp) :=
  match node with
  | none => .ok none
  | some n =>
    match name with
    | none => .error .fault
    | some nm => .ok (find_prop_go n.props nm)

/-- A located node: the C pointers `node->parent` and `node->sibling` made
explicit.  `after` is the sibling chain hanging off `node->sibling` (so
`node->sibling` is `after.head?`), `parent` the node `node->parent` points
to (`none` for a NULL parent, as for top-level nodes). -/
structure Loc where
  node : DNode
  parent : Option DNode
  after : List DNode

/-- `dtb_get_sibling` of the source. -/
def dtb_get_sibling (l : Option Loc) : Option DNode :=
  match l with
  | none => none
  | some l =>
    match l.after.head? with
    | none => none
    | some s => some s

/-- `dtb_get_child` of the source (`node->child` is the chain head). -/
def dtb_get_child (node : Option DNode) : Option DNode :=
  match node with
  | none => none
  | some n => n.children.head?

/-- `dtb_get_parent` of the source. -/
def dtb_get_parent (l : Option Loc) : Option DNode :=
  match l with
  | none => none
  | some l => l.parent

/-- The index-walking loop of `dtb_get_prop`. -/
def dtb_get_prop_go : List DProp → Nat → Option DProp
  | [], _ => none
  | p :: _, 0 => some p
  | _ :: rest, i + 1 => dtb_get_prop_go rest i

/-- `dtb_get_prop` of the source. -/
def dtb_get_prop (node : Option DNode) (index : Nat) : Option DProp :=
  match node with
  | none => none
  | some n => dtb_get_prop_go n.props index

/-- `dtb_node_stat`. -/
structure NodeStat where
  name : Bytes
  child_count : Nat
  prop_count : Nat
  sibling_count : Nat

/-- The `while (child != NULL)` counting loops of `dtb_stat_node`, walking a
sibling chain. -/
def chainCount : List DNode → Nat
  | [] => 0
  | _ :: rest => chainCount rest + 1

/-- The property-counting loop of `dtb_stat_node`. -/
def propChainCount : List DProp → Nat
  | [] => 0
  | _ :: rest => propChainCount rest + 1

/-- `dtb_stat_node` of the source.  A NULL node returns without touching the
output struct; a non-NULL node with a NULL output pointer faults on the
first store.  The `node == state.root` pointer comparison is the comparison
of allocation indices.  `sibling_count` walks the parent's whole child
chain and is left zero when `node->parent` is NULL. -/
def dtb_stat_node (st : PState) (l : Option Loc) (statPresent : Bool) :
    Except PErr (Option NodeStat) :=
  match l with
  | none => .ok none
  | some l =>
    if statPresent = false then .error .fault
    else
      .ok (some
        { name :=
            match st.rootsL.head? with
            | some r => if r.idx = l.node.idx then strBytes "/" else l.node.name
            | none => l.node.name
          prop_count := propChainCount l.node.props
          child_count := chainCount l.node.children
          sibling_count :=
            match l.parent with
            | none => 0
            | some p => chainCount p.children })

/-- The scanning loop of `dtb_read_prop_string`: `curr` counts the NUL
bytes seen; the first non-NUL byte seen while `curr = index` starts the
result, which extends to the next terminator. -/
def read_prop_string_go (index : Nat) : Bytes → Nat → Option Bytes
  | [], _ => none
  | b :: rest, curr =>
    if b = 0 then read_prop_string_go index rest (curr + 1)
    else if curr = index then some ((b :: rest).takeWhile (fun x => x ≠ 0))
    else read_prop_string_go index rest curr

/-- `dtb_read_prop_string` of the source. -/
def dtb_read_prop_string (prop : Option DProp) (index : Nat) : Option Bytes :=
  match prop with
  | none => none
  | some p => read_prop_string_go index p.bytes 0

/-- `dtb_read_prop_bytestring` of the source: NULL property yields 0;
otherwise the byte count re-read from the blob header (equal to
`prop.length`) is returned, whether or not an output buffer was supplied
(the copy has no further observable here). -/
def dtb_read_prop_bytestring (prop : Option DProp) : Nat :=
  match prop with
  | none => 0
  | some p => p.length

/-- `dtb_read_prop_cell_array` of the source: NULL property or zero
`cell_count` yield 0; otherwise the truncated tuple count, returned whether
or not an output buffer was supplied. -/
def dtb_read_prop_cell_array (prop : Option DProp) (cell_count : Nat) : Nat :=
  match prop with
  | none => 0
  | some p => if cell_count = 0 then 0 else p.length / (cell_count * 4)

/-! ## Specification-side definitions

These are not translations of source functions; they name the concepts the
specification's sentences quantify over (path segments, blob-order
sequences, the cells-override fold, the last phandle writer), so that the
claims can be stated. -/

/-- One step of the `#address-cells`/`#size-cells` override that
`check_for_special_prop` performs on a node's current cell-width fields
when the given property is attached (no change for any other property).
Only a property whose single-cell decode is defined (`length/4 = 1`)
updates; a mismatched length faults the parse instead, so it never appears
in a completed parse. -/
def applyCellsProp (av : Nat × Nat) (p : DProp) : Nat × Nat :=
  if p.name = strBytes "#address-cells" ∧ p.length / 4 = 1 then
    (cellAt p.bytes 0 % 256, av.2)
  else if p.name = strBytes "#size-cells" ∧ p.length / 4 = 1 then
    (av.1, cellAt p.bytes 0 % 256)
  else av

/-- The cell-width fields obtained from inherited values `av` after
attaching the properties `ps` in order. -/
def foldCells (av : Nat × Nat) (ps : List DProp) : Nat × Nat :=
  ps.foldl applyCellsProp av

/-- The property is a `phandle`/`linux,phandle` declaration whose first
cell decodes (big-endian) to `h`. -/
def phDec (p : DProp) (h : Nat) : Prop :=
  (p.name = strBytes "phandle" ∨ p.name = strBytes "linux,phandle") ∧
    p.length / 4 = 1 ∧ cellAt p.bytes 0 = h

/-- The value of the last recorded phandle-table store at index `h`. -/
def lastKeyed (ws : List (Nat × Nat)) (h : Nat) : Option Nat :=
  (ws.filterMap (fun w => if w.1 = h then some w.2 else none)).getLast?

/-- All nodes of a subtree: the node itself and, recursively, every node of
every child. -/
def allNodes : DNode → List DNode
  | .mk i nm a b c d props children ps cs =>
    DNode.mk i nm a b c d props children ps cs ::
      children.attach.flatMap (fun x => allNodes x.1)
termination_by n => sizeOf n
decreasing_by
  have hx := List.sizeOf_lt_of_mem x.2
  simp only [DNode.mk.sizeOf_spec]
  omega

/-- The per-node relationship between the chain fields the C code stores
and the ghost blob-order sequences: chains are the reversed sequences, the
final cell widths are the inherited ones overridden by the node's own
properties in order, and every child was created with exactly the widths
the node held at that moment (its inherited widths overridden by the
properties already attached, a prefix of the node's property sequence). -/
def LocalOk (n : DNode) : Prop :=
  n.children = (n.childSeq.map Prod.fst).reverse ∧
  n.props = n.propsSeq.reverse ∧
  (n.addr_cells, n.size_cells) = foldCells (n.inhA, n.inhS) n.propsSeq ∧
  ∀ c pre, (c, pre) ∈ n.childSeq →
    (c.inhA, c.inhS) = foldCells (n.inhA, n.inhS) pre ∧
      ∃ suf, n.propsSeq = pre ++ suf

/-- `LocalOk` at every node of the subtree. -/
def TreeOk (n : DNode) : Prop := ∀ m ∈ allNodes n, LocalOk m

/-- The non-empty slash-separated segments of a path, in order: the
sequence `dtb_find`'s walk consumes.  Fueled like the walk itself;
`name.length + 1` steps always suffice. -/
def segsGo : Nat → Bytes → List Bytes
  | 0, _ => []
  | fuel + 1, name =>
    let n1 := name.dropWhile (fun c => c = '/'.toNat)
    if n1.isEmpty then []
    else
      let seg := n1.takeWhile (fun c => ¬ c = '/'.toNat)
      seg :: segsGo fuel (n1.drop seg.length)

/-- The non-empty slash-separated segments of a path. -/
def segs (name : Bytes) : List Bytes := segsGo (name.length + 1) name

/-- The segment-by-segment descent that `dtb_find` implements: start at the
root, match each segment against the children of the current node, NULL
propagates. -/
def findSegs : Option DNode → List Bytes → Option DNode
  | none, _ => none
  | some n, [] => some n
  | some n, seg :: rest => findSegs (find_child_internal n seg seg.length) rest

/-! ## Concrete blobs

Hand-assembled structure blocks used for counterexamples, failing inputs
and witnesses.  `cellsToBytes` lays out a list of 32-bit cell values as
big-endian bytes. -/

def cellsToBytes (cs : List Nat) : Bytes :=
  cs.flatMap (fun c => [c / 16777216 % 256, c / 65536 % 256, c / 256 % 256, c % 256])

/-- A minimal valid blob: one node `A`, no properties, END.  Its only
1-valued cell is the BEGIN_NODE token, so the pre-scan counts exactly one
node. -/
def blobC1 : Blob :=
  { magic := 3490578157, sizeStructs := 16,
    structs := cellsToBytes [1, 1090519040, 2, 9], strings := [] }

/-- One node `A` with properties `x` (8 payload bytes decoding as cells
`[1, 3]`, which pad the pre-scan counts) and `phandle` decoding to 7 — out
of range for the 2-slot phandle table. -/
def blobC2 : Blob :=
  { magic := 3490578157, sizeStructs := 52,
    structs := cellsToBytes [1, 1090519040, 3, 8, 0, 1, 3, 3, 4, 2, 7, 2, 9],
    strings := strBytes "x" ++ [0] ++ strBytes "phandle" ++ [0] }

/-- A well-formed blob that parses completely: node `A` (allocator index 0)
with properties `#address-cells = 3` and `phandle = 1`, then child `B`
(index 1) with its own `phandle = 1`.  Both phandles are in range (the
payload 1-cells inflate the pre-scan node count to 4) and collide. -/
def blobW : Blob :=
  { magic := 3490578157, sizeStructs := 76,
    structs := cellsToBytes
      [1, 1090519040, 3, 4, 0, 3, 3, 4, 15, 1, 1, 1107296256, 3, 4, 15, 1, 2, 2, 9],
    strings := strBytes "#address-cells" ++ [0] ++ strBytes "phandle" ++ [0] }

/-- Two top-level nodes: `A` (with pre-scan-padding property `x`) then,
after a NOP cell, `B`. -/
def blobC9 : Blob :=
  { magic := 3490578157, sizeStructs := 52,
    structs := cellsToBytes [1, 1090519040, 3, 8, 0, 1, 3, 2, 4, 1, 1107296256, 2, 9],
    strings := strBytes "x" ++ [0] }

/-- A blob whose first four big-endian bytes are not 0xD00DFEED. -/
def blobBad : Blob :=
  { magic := 0, sizeStructs := 0, structs := [], strings := [] }

/-- The state after a successful fresh `dtb_init` on `blobW`. -/
def stW : PState := (dtb_init 64 blobW opsAll pstate0).toOption.getD pstate0

/-- A throwaway stat record for `Option.getD` extraction in closed
statements. -/
def dummyStat : NodeStat := ⟨[], 0, 0, 0⟩

/-- Node `A` of the `blobW` parse (allocation index 0). -/
def nodeA : DNode := stW.rootsL.headD dummyNode

/-- Node `B` of the `blobW` parse (allocation index 1), the only child of
`A`. -/
def nodeB : DNode := nodeA.children.headD dummyNode

/-- The head of the `A` property chain (its `phandle` property, attached
last). -/
def propPhA : DProp := nodeA.props.headD dummyProp

/-- `B` located inside the parsed tree: parent `A`, no further sibling. -/
def locB : Loc := ⟨nodeB, some nodeA, []⟩

/-- The stat record `dtb_stat_node` fills for `B`. -/
def statB : NodeStat :=
  ((dtb_stat_node stW (some locB) true).toOption.getD none).getD dummyStat

/-- The state after `dtb_init` on `blobW` followed by `dtb_init` on the
bad-magic blob. -/
def stC4 : PState :=
  ((dtb_init 64 blobW opsAll pstate0).bind
    (fun st1 => dtb_init 64 blobBad opsAll st1)).toOption.getD pstate0

/-- The state after a fresh `dtb_init` on the two-top-level-node blob. -/
def stC9 : PState := (dtb_init 64 blobC9 opsAll pstate0).toOption.getD pstate0

/-- State fields `parse_node` never touches, together with the phandle
stores it can only extend, in range of the table. -/
def Frame (st st' : PState) : Prop :=
  st'.strings = st.strings ∧ st'.structs = st.structs ∧
  st'.cellCount = st.cellCount ∧ st'.rootsL = st.rootsL ∧
  st'.rootSeq = st.rootSeq ∧ st'.nodeMax = st.nodeMax ∧
  st'.propMax = st.propMax ∧ st'.hasBuff = st.hasBuff ∧ st'.ops = st.ops ∧
  ∃ ws, st'.phWrites = st.phWrites ++ ws ∧ ∀ w ∈ ws, w.1 < st.nodeMax

/-- Every `phandle`/`linux,phandle` property of every node of the subtree
has its phandle-table store on record. -/
def WritesLinked (st : PState) (n : DNode) : Prop :=
  ∀ m ∈ allNodes n, ∀ p ∈ m.props, ∀ h, phDec p h → (h, m.idx) ∈ st.phWrites

/-- The full postcondition of a completed `parse_node` call that started in
`st` with inherited widths `(a, s)`. -/
def ParsedOk (st : PState) (a s : Nat) (res : Option DNode) (st' : PState) : Prop :=
  Frame st st' ∧
  ∀ n, res = some n → n.inhA = a ∧ n.inhS = s ∧ TreeOk n ∧ WritesLinked st' n

/-! ## Theorems -/

theorem chainCount_eq_length (xs : List DNode) : chainCount xs = xs.length := by
  induction xs with
  | nil => rfl
  | cons x rest ih => simp [chainCount, ih]

/-- Claim C1 (code_bug): the pre-scan of the minimal one-node blob counts
exactly one BEGIN_NODE token, yet `alloc_node` refuses to hand out the
single counted slot even with the whole table unused (`0 + 1 < 1` fails),
so `dtb_init` reports exhaustion and dereferences the NULL node: the
allocators cannot hand out every counted slot, and enumeration cannot reach
the counted node count. -/
theorem claim_C1 :
    countTokens blobC1.structs (blobC1.sizeStructs / 4) 1 = 1 ∧
    (alloc_node { pstate0 with nodeMax := 1, nodeHead := 0 }).1 = none ∧
    dtb_init 32 blobC1 opsAll pstate0 = .error .fault :=
  ⟨rfl, rfl, rfl⟩

/-- Claim C2 (code_bug): on `blobC2` the pre-scan sizes the phandle table
at 2 slots, the `phandle` property decodes to 7, and
`check_for_special_prop` stores through `handle_lookup[7]` without any
bounds check — an out-of-bounds write, i.e. undefined behaviour, not a
silent drop leaving the state unchanged. -/
theorem claim_C2 :
    countTokens blobC2.structs (blobC2.sizeStructs / 4) 1 = 2 ∧
    cellAt blobC2.structs 10 = 7 ∧
    dtb_init 32 blobC2 opsAll pstate0 = .error .fault :=
  ⟨rfl, rfl, rfl⟩

/-- Claim C3, counterexample: in the `blobW` parse, node `A` (index 0) has a
`phandle` property decoding to 1, but `dtb_find_phandle 1` returns node
index 1 (node `B`, whose later `phandle = 1` overwrote the table entry),
not `A`. -/
theorem claim_C3_counterexample :
    dtb_init 64 blobW opsAll pstate0 = .ok stW ∧
    nodeA.idx = 0 ∧
    propPhA ∈ nodeA.props ∧
    propPhA.name = strBytes "phandle" ∧
    propPhA.length / 4 = 1 ∧
    cellAt propPhA.bytes 0 = 1 ∧
    dtb_find_phandle stW 1 = some 1 ∧
    dtb_find_phandle stW 1 ≠ some nodeA.idx := by
  refine ⟨rfl, rfl, ?_, rfl, rfl, rfl, rfl, by decide⟩
  have h : nodeA.props = [propPhA, ⟨0, strBytes "#address-cells", 4, [0, 0, 0, 3]⟩] := rfl
  rw [h]
  exact List.mem_cons_self _ _

/-- Claim C4, counterexample: a successful `dtb_init` on `blobW` followed
by `dtb_init` on a bad-magic blob reports the magic error exactly once, but
does not leave the parser empty: `dtb_find "/"` still returns the previous
root (node index 0), not null. -/
theorem claim_C4_counterexample :
    (dtb_init 64 blobW opsAll pstate0).bind
      (fun st1 => dtb_init 64 blobBad opsAll st1) = .ok stC4 ∧
    stC4.errors = ["FDT has incorrect magic number."] ∧
    (dtb_find_api stC4 (some (strBytes "/"))).map (Option.map DNode.idx) =
      .ok (some 0) :=
  ⟨rfl, rfl, rfl⟩

/-- Claim C4 (amended): `dtb_init` on a bad-magic blob (with `malloc`
supplied, so the magic check is reached) invokes `on_error` exactly once
when the callback is present, and returns leaving the tree exactly as it
was — so `dtb_find "/"` returns null precisely when no tree existed
before.  (As stated the claim is false after a previous successful init:
the previous tree remains exposed; the counterexample theorem shows it.) -/
theorem claim_C4 (fuel : Nat) (b : Blob) (ops : Ops) (st : PState)
    (hmal : ops.hasMalloc = true) (hmag : b.magic ≠ 3490578157) :
    (dtb_init fuel b ops st).map PState.rootsL = .ok st.rootsL ∧
    (dtb_init fuel b ops st).map PState.errors =
      .ok (st.errors ++
        if ops.hasOnError then ["FDT has incorrect magic number."] else []) ∧
    (st.rootsL = [] →
      (dtb_init fuel b ops st).bind
        (fun st1 => dtb_find_api st1 (some (strBytes "/"))) = .ok none) := by
  unfold dtb_init
  rw [hmal]
  simp only [Bool.true_eq_false, if_false, if_pos hmag]
  unfold emitError
  by_cases ho : ops.hasOnError
  · refine ⟨by simp [ho, Except.map], by simp [ho, Except.map], fun h => ?_⟩
    simp [ho, Except.bind, dtb_find_api, h]
  · simp only [Bool.not_eq_true] at ho
    refine ⟨by simp [ho, Except.map], by simp [ho, Except.map], fun h => ?_⟩
    simp [ho, Except.bind, dtb_find_api, h]

/-- Claim C4, witness: the amended statement evaluated on the bad-magic
blob from the pristine initial state. -/
theorem claim_C4_witness :
    (dtb_init 1 blobBad opsAll pstate0).map PState.rootsL = .ok pstate0.rootsL ∧
    (dtb_init 1 blobBad opsAll pstate0).map PState.errors =
      .ok (pstate0.errors ++
        if opsAll.hasOnError then ["FDT has incorrect magic number."] else []) ∧
    (pstate0.rootsL = [] →
      (dtb_init 1 blobBad opsAll pstate0).bind
        (fun st1 => dtb_find_api st1 (some (strBytes "/"))) = .ok none) :=
  claim_C4 1 blobBad opsAll pstate0 rfl (by decide)

/-- Claim C5, counterexample: `dtb_find_child` with a non-NULL start node
and a NULL name reaches `string_len(NULL)` and faults, instead of returning
null unharmed. -/
theorem claim_C5_counterexample :
    dtb_find_child (some dummyNode) none = .error .fault :=
  rfl

/-- Claim C5 (amended): every query API, given a NULL node or property
pointer, returns null/zero (or returns without effect) and never reaches
the error callback (none of these functions contains an `on_error` call);
`dtb_find` likewise returns null on an empty tree without reading the path.
(As stated the claim is false: NULL *string* arguments are not checked and
fault, as the counterexample theorem shows, and a NULL `start` of
`dtb_find_compatible` is a documented search-from-the-beginning sentinel
rather than an error input.) -/
theorem claim_C5 :
    (∀ name, dtb_find_child none name = .ok none) ∧
    (∀ name, dtb_find_prop none name = .ok none) ∧
    dtb_get_sibling none = none ∧
    dtb_get_child none = none ∧
    dtb_get_parent none = none ∧
    (∀ i, dtb_get_prop none i = none) ∧
    (∀ st sp, dtb_stat_node st none sp = .ok none) ∧
    (∀ i, dtb_read_prop_string none i = none) ∧
    dtb_read_prop_bytestring none = 0 ∧
    (∀ k, dtb_read_prop_cell_array none k = 0) ∧
    (∀ (st : PState) (name : Option Bytes),
      dtb_find_api { st with rootsL := [] } name = .ok none) :=
  ⟨fun _ => rfl, fun _ => rfl, rfl, rfl, rfl, fun _ => rfl, fun _ _ => rfl,
    fun _ => rfl, rfl, fun _ => rfl, fun _ _ => rfl⟩

/-- Claim C9, counterexample: `blobC9` holds top-level nodes `A` then `B`
in that blob order (`rootSeq`), but the head of the parsed root chain — the
node `dtb_init` leaves in `state.root` — is `B`, the *last* one
encountered, not the first. -/
theorem claim_C9_counterexample :
    dtb_init 64 blobC9 opsAll pstate0 = .ok stC9 ∧
    stC9.rootSeq.map DNode.name = [strBytes "A", strBytes "B"] ∧
    stC9.rootsL.map DNode.name = [strBytes "B", strBytes "A"] :=
  ⟨rfl, rfl, rfl⟩

/-- Claim C10: `dtb_stat_node` on a non-NULL node reports `sibling_count`
equal to the length of the parent's whole child chain — the node's siblings
plus the node itself when the node is on that chain — and reports 0 for a
node with a NULL parent, whatever siblings it actually has. -/
theorem claim_C10 (st : PState) (l : Loc) (sp : Bool) (stat : NodeStat)
    (h : dtb_stat_node st (some l) sp = .ok (some stat)) :
    (l.parent = none → stat.sibling_count = 0) ∧
    ∀ p, l.parent = some p → stat.sibling_count = chainCount p.children ∧
      (l.node ∈ p.children → stat.sibling_count = p.children.length - 1 + 1) := by
  cases sp with
  | false => simp [dtb_stat_node] at h
  | true =>
    simp only [dtb_stat_node, Bool.true_eq_false, if_false, Except.ok.injEq,
      Option.some.injEq] at h
    subst h
    constructor
    · intro hp
      simp [hp]
    · intro p hp
      refine ⟨by simp [hp], ?_⟩
      intro hmem
      have hlen : 0 < p.children.length := List.length_pos.mpr (List.ne_nil_of_mem hmem)
      simp [hp, chainCount_eq_length]
      omega

/-- Claim C10, witness: node `B` of the `blobW` parse, located under parent
`A` whose child chain is `[B]`, gets `sibling_count = (1 - 1) + 1 = 1`. -/
theorem claim_C10_witness :
    statB.sibling_count = nodeA.children.length - 1 + 1 := by
  have h := (claim_C10 stW locB true statB rfl).2 nodeA rfl
  refine h.2 ?_
  have e : nodeA.children = [nodeB] := rfl
  rw [e]
  exact List.mem_singleton_self _

theorem streq_bounded_congr (len : Nat) :
    ∀ (a b c : Bytes), b.take len = c.take len →
      strings_eq_bounded a b len = strings_eq_bounded a c len := by
  induction len with
  | zero => intro a b c _; rfl
  | succ n ih =>
    intro a b c h
    cases b with
    | nil =>
      cases c with
      | nil => rfl
      | cons y t => simp at h
    | cons x bt =>
      cases c with
      | nil => simp at h
      | cons y ct =>
        simp only [List.take_succ_cons, List.cons.injEq] at h
        obtain ⟨rfl, ht⟩ := h
        simp only [strings_eq_bounded, List.headD_cons, List.tail_cons]
        rw [ih a.tail bt ct ht]

theorem find_child_go_congr (chain : List DNode) (nm nm' : Bytes) (bound : Nat)
    (h : nm.take bound = nm'.take bound) :
    find_child_go chain nm bound = find_child_go chain nm' bound := by
  induction chain with
  | nil => rfl
  | cons c rest ih =>
    simp only [find_child_go]
    rw [streq_bounded_congr bound c.name nm nm' h, ih]

theorem find_child_internal_congr (start : DNode) (nm nm' : Bytes) (bound : Nat)
    (h : nm.take bound = nm'.take bound) :
    find_child_internal start nm bound = find_child_internal start nm' bound :=
  find_child_go_congr start.children nm nm' bound h

theorem segLen_eq_takeWhile (l : Bytes) (t : Nat) :
    (match string_find_char l t with
     | some i => i
     | none => string_len l) = (l.takeWhile (fun c => ¬ c = t)).length := by
  induction l with
  | nil => rfl
  | cons c rest ih =>
    by_cases hc : c = t
    · simp [string_find_char, hc]
    · simp only [string_find_char, if_neg hc]
      have hstep : (c :: rest).takeWhile (fun x => ¬ x = t) =
          c :: rest.takeWhile (fun x => ¬ x = t) := by
        simp [List.takeWhile_cons, hc]
      rw [hstep]
      cases hfind : string_find_char rest t with
      | none =>
        rw [hfind] at ih
        simp only [string_len] at ih ⊢
        simp only [decide_not] at ih
        simp [← ih]
      | some i =>
        rw [hfind] at ih
        simp only [decide_not] at ih
        simpa using ih

theorem head_dropWhile_false {p : Nat → Bool} :
    ∀ (l : Bytes) (c : Nat) (t : Bytes), l.dropWhile p = c :: t → p c = false := by
  intro l
  induction l with
  | nil => intro c t h; simp [List.dropWhile] at h
  | cons x rest ih =>
    intro c t h
    by_cases hx : p x
    · simp only [List.dropWhile, hx] at h
      exact ih c t h
    · simp only [Bool.not_eq_true] at hx
      simp only [List.dropWhile, hx, List.cons.injEq] at h
      obtain ⟨rfl, _⟩ := h
      exact hx

theorem dtb_find_go_segs :
    ∀ (fuel : Nat) (name : Bytes) (scan : Option DNode), name.length < fuel →
      dtb_find_go fuel scan name = findSegs scan (segsGo fuel name) := by
  intro fuel
  induction fuel with
  | zero => intro name scan h; exact absurd h (Nat.not_lt_zero _)
  | succ fuel ih =>
    intro name scan h
    cases scan with
    | none =>
      show (none : Option DNode) = findSegs none (segsGo (fuel + 1) name)
      cases segsGo (fuel + 1) name <;> rfl
    | some node =>
      have h1 : dtb_find_go (fuel + 1) (some node) name =
          (if (match string_find_char (name.dropWhile (fun c => c = '/'.toNat)) '/'.toNat with
               | some i => i
               | none => string_len (name.dropWhile (fun c => c = '/'.toNat))) = 0
           then some node
           else dtb_find_go fuel
             (find_child_internal node (name.dropWhile (fun c => c = '/'.toNat))
               (match string_find_char (name.dropWhile (fun c => c = '/'.toNat)) '/'.toNat with
                | some i => i
                | none => string_len (name.dropWhile (fun c => c = '/'.toNat))))
             ((name.dropWhile (fun c => c = '/'.toNat)).drop
               (match string_find_char (name.dropWhile (fun c => c = '/'.toNat)) '/'.toNat with
                | some i => i
                | none => string_len (name.dropWhile (fun c => c = '/'.toNat))))) := rfl
      have h2 : segsGo (fuel + 1) name =
          (if (name.dropWhile (fun c => c = '/'.toNat)).isEmpty then []
           else
             (name.dropWhile (fun c => c = '/'.toNat)).takeWhile (fun c => ¬ c = '/'.toNat) ::
               segsGo fuel
                 ((name.dropWhile (fun c => c = '/'.toNat)).drop
                   ((name.dropWhile (fun c => c = '/'.toNat)).takeWhile
                     (fun c => ¬ c = '/'.toNat)).length)) := rfl
      rw [h1, h2, segLen_eq_takeWhile]
      have hsub : (name.dropWhile (fun c => c = '/'.toNat)).length ≤ name.length :=
        (List.dropWhile_sublist _).length_le
      cases hn1 : name.dropWhile (fun c => c = '/'.toNat) with
      | nil => rfl
      | cons c t =>
        rw [hn1] at hsub
        have hc : (fun x => decide (x = '/'.toNat)) c = false :=
          head_dropWhile_false name c t hn1
        have hcne : ¬ c = '/'.toNat := by simpa using hc
        have hcne47 : ¬ c = 47 := by simpa using hc
        have hstep : (c :: t).takeWhile (fun x => ¬ x = '/'.toNat) =
            c :: t.takeWhile (fun x => ¬ x = '/'.toNat) := by
          simp [List.takeWhile_cons, hcne, hcne47]
        rw [hstep]
        have hlen_cons : (c :: t.takeWhile (fun x => ¬ x = '/'.toNat)).length =
            (t.takeWhile (fun x => ¬ x = '/'.toNat)).length + 1 := List.length_cons _ _
        rw [hlen_cons]
        rw [if_neg (Nat.succ_ne_zero _)]
        have hempty : (c :: t).isEmpty = false := rfl
        rw [hempty]
        rw [if_neg (by simp : ¬ (false = true))]
        have hdroplen : ((c :: t).drop ((t.takeWhile (fun x => ¬ x = '/'.toNat)).length + 1)).length < fuel := by
          rw [List.drop_succ_cons, List.length_drop]
          simp only [List.length_cons] at hsub
          omega
        rw [ih _ _ hdroplen]
        have hpre : t.takeWhile (fun x => ¬ x = '/'.toNat) <+: t := List.takeWhile_prefix _
        have htake : (c :: t).take ((t.takeWhile (fun x => ¬ x = '/'.toNat)).length + 1) =
            (c :: t.takeWhile (fun x => ¬ x = '/'.toNat)).take
              ((t.takeWhile (fun x => ¬ x = '/'.toNat)).length + 1) := by
          rw [List.take_succ_cons, List.take_succ_cons]
          rw [← List.prefix_iff_eq_take.mp hpre]
          rw [List.take_length]
        have hfc : find_child_internal node (c :: t)
              ((t.takeWhile (fun x => ¬ x = '/'.toNat)).length + 1) =
            find_child_internal node (c :: t.takeWhile (fun x => ¬ x = '/'.toNat))
              ((t.takeWhile (fun x => ¬ x = '/'.toNat)).length + 1) :=
          find_child_internal_congr _ _ _ _ htake
        rw [hfc]
        have hfs : findSegs (some node)
            ((c :: t.takeWhile (fun x => ¬ x = '/'.toNat)) ::
              segsGo fuel ((c :: t).drop ((t.takeWhile (fun x => ¬ x = '/'.toNat)).length + 1))) =
            findSegs (find_child_internal node (c :: t.takeWhile (fun x => ¬ x = '/'.toNat))
                (c :: t.takeWhile (fun x => ¬ x = '/'.toNat)).length)
              (segsGo fuel ((c :: t).drop ((t.takeWhile (fun x => ¬ x = '/'.toNat)).length + 1))) := rfl
        rw [hfs, hlen_cons]

/-- Claim C6: after init, `dtb_find` depends on its path only through the
sequence of non-empty slash-separated segments (hence it is invariant under
collapse of consecutive slashes, leading slashes, and a trailing slash),
and a path with no segments — "" or "/" — returns the root. -/
theorem claim_C6 :
    (∀ (st : PState) (p q : Bytes), segs p = segs q → dtb_find st p = dtb_find st q) ∧
    ∀ (st : PState) (r : DNode), st.rootsL.head? = some r →
      dtb_find st (strBytes "") = some r ∧ dtb_find st (strBytes "/") = some r := by
  constructor
  · intro st p q hseg
    unfold dtb_find
    rw [dtb_find_go_segs (p.length + 1) p _ (Nat.lt_succ_self _),
        dtb_find_go_segs (q.length + 1) q _ (Nat.lt_succ_self _)]
    show findSegs _ (segs p) = findSegs _ (segs q)
    rw [hseg]
  · intro st r hr
    constructor
    · unfold dtb_find
      rw [hr]
      rfl
    · unfold dtb_find
      rw [hr]
      rfl

/-- Claim C6, witness: on the `blobW` parse, the paths `"B//"` (consecutive
and trailing slashes) and `"/B"` (leading slash) have the same segment
sequence and resolve to the same node (`B`, index 1); the empty path and
`"/"` return the root `A`. -/
theorem claim_C6_witness :
    segs (strBytes "B//") = segs (strBytes "/B") ∧
    dtb_find stW (strBytes "B//") = dtb_find stW (strBytes "/B") ∧
    (dtb_find stW (strBytes "B//")).map DNode.idx = some 1 ∧
    dtb_find stW (strBytes "") = some nodeA ∧
    dtb_find stW (strBytes "/") = some nodeA :=
  ⟨by decide, claim_C6.1 stW _ _ (by decide), rfl,
    (claim_C6.2 stW nodeA rfl).1, (claim_C6.2 stW nodeA rfl).2⟩

theorem allNodes_mk (i : Nat) (nm : Bytes) (a b cA cS : Nat) (props : List DProp)
    (children : List DNode) (ps : List DProp) (cs : List (DNode × List DProp)) :
    allNodes (.mk i nm a b cA cS props children ps cs) =
      DNode.mk i nm a b cA cS props children ps cs :: children.flatMap allNodes := by
  rw [allNodes]
  congr 1
  calc children.attach.flatMap (fun x => allNodes x.1)
      = (children.attach.map (fun x => x.1)).flatMap allNodes := by
        rw [List.flatMap_map]
    _ = children.flatMap allNodes := by rw [List.attach_map_subtype_val]

theorem self_mem_allNodes (n : DNode) : n ∈ allNodes n := by
  cases n
  rw [allNodes_mk]
  exact List.mem_cons_self _ _

theorem sizeOf_pos_dnode (n : DNode) : 1 ≤ sizeOf n := by
  cases n
  simp only [DNode.mk.sizeOf_spec]
  omega

theorem mem_allNodes_trans (N : Nat) :
    ∀ (n : DNode), sizeOf n ≤ N → ∀ (m k : DNode),
      m ∈ allNodes n → k ∈ allNodes m → k ∈ allNodes n := by
  induction N with
  | zero =>
    intro n hsz
    exact absurd (le_trans (sizeOf_pos_dnode n) hsz) (by omega)
  | succ N ihN =>
    intro n hsz m k hm hk
    cases n with
    | mk i nm a b cA cS props children ps cs =>
      rw [allNodes_mk] at hm ⊢
      rcases List.mem_cons.mp hm with hm | hm
      · subst hm
        rwa [allNodes_mk] at hk
      · obtain ⟨c, hc, hmc⟩ := List.mem_flatMap.mp hm
        have hszc : sizeOf c ≤ N := by
          have h1 := List.sizeOf_lt_of_mem hc
          simp only [DNode.mk.sizeOf_spec] at hsz
          omega
        exact List.mem_cons.mpr (.inr
          (List.mem_flatMap.mpr ⟨c, hc, ihN c hszc m k hmc hk⟩))

theorem treeOk_of_mem {n m : DNode} (hT : TreeOk n) (hm : m ∈ allNodes n) : TreeOk m :=
  fun k hk => hT k (mem_allNodes_trans (sizeOf n) n le_rfl m k hm hk)

theorem treeOk_mk (i : Nat) (nm : Bytes) (a b cA cS : Nat) (props : List DProp)
    (children : List DNode) (ps : List DProp) (cs : List (DNode × List DProp))
    (hloc : LocalOk (.mk i nm a b cA cS props children ps cs))
    (hch : ∀ c ∈ children, TreeOk c) :
    TreeOk (.mk i nm a b cA cS props children ps cs) := by
  intro m hm
  rw [allNodes_mk] at hm
  rcases List.mem_cons.mp hm with hm | hm
  · exact hm ▸ hloc
  · obtain ⟨c, hc, hmc⟩ := List.mem_flatMap.mp hm
    exact hch c hc m hmc

theorem frame_refl (st : PState) : Frame st st :=
  ⟨rfl, rfl, rfl, rfl, rfl, rfl, rfl, rfl, rfl, [], by simp, by simp⟩

theorem frame_trans {st1 st2 st3 : PState} (h1 : Frame st1 st2) (h2 : Frame st2 st3) :
    Frame st1 st3 := by
  obtain ⟨a1, b1, c1, d1, e1, f1, g1, i1, j1, ws1, hw1, hr1⟩ := h1
  obtain ⟨a2, b2, c2, d2, e2, f2, g2, i2, j2, ws2, hw2, hr2⟩ := h2
  refine ⟨a2.trans a1, b2.trans b1, c2.trans c1, d2.trans d1, e2.trans e1,
    f2.trans f1, g2.trans g1, i2.trans i1, j2.trans j1, ws1 ++ ws2, ?_, ?_⟩
  · rw [hw2, hw1, List.append_assoc]
  · intro w hw
    rcases List.mem_append.mp hw with h | h
    · exact hr1 w h
    · have := hr2 w h
      rwa [f1] at this

theorem frame_mem_writes {st st' : PState} (h : Frame st st') {w : Nat × Nat}
    (hw : w ∈ st.phWrites) : w ∈ st'.phWrites := by
  obtain ⟨_, _, _, _, _, _, _, _, _, ws, hws, _⟩ := h
  rw [hws]
  exact List.mem_append.mpr (.inl hw)

theorem writesLinked_mono {st st' : PState} {n : DNode} (h : Frame st st')
    (hl : WritesLinked st n) : WritesLinked st' n := by
  intro m hm p hp hh hd
  exact frame_mem_writes h (hl m hm p hp hh hd)

theorem strings_eq_iff : ∀ (a b : Bytes), strings_eq a b = true ↔ a = b := by
  intro a
  induction a with
  | nil => intro b; cases b <;> simp [strings_eq]
  | cons x at' ih =>
    intro b
    cases b with
    | nil => simp [strings_eq]
    | cons y bt =>
      by_cases hxy : x = y
      · subst hxy
        simp [strings_eq, ih]
      · simp [strings_eq, hxy]

theorem alloc_node_some {st st' : PState} {i : Nat}
    (h : alloc_node st = (some i, st')) :
    i = st.nodeHead ∧ st' = { st with nodeHead := st.nodeHead + 1 } ∧ Frame st st' := by
  unfold alloc_node at h
  split at h
  · rw [Prod.mk.injEq] at h
    obtain ⟨h1, h2⟩ := h
    injection h1 with h1
    subst h1
    subst h2
    exact ⟨rfl, rfl, rfl, rfl, rfl, rfl, rfl, rfl, rfl, rfl, rfl, [], by simp, by simp⟩
  · simp at h

theorem alloc_prop_some {st st' : PState} {i : Nat}
    (h : alloc_prop st = (some i, st')) :
    i = st.propHead ∧ st' = { st with propHead := st.propHead + 1 } ∧ Frame st st' := by
  unfold alloc_prop at h
  split at h
  · rw [Prod.mk.injEq] at h
    obtain ⟨h1, h2⟩ := h
    injection h1 with h1
    subst h1
    subst h2
    exact ⟨rfl, rfl, rfl, rfl, rfl, rfl, rfl, rfl, rfl, rfl, rfl, [], by simp, by simp⟩
  · simp at h

theorem parse_prop_ok {st st' : PState} {off off' : Nat} {r : Option DProp}
    (h : parse_prop st off = .ok (r, off', st')) : Frame st st' := by
  unfold parse_prop at h
  split at h
  · simp only [Except.ok.injEq, Prod.mk.injEq] at h
    obtain ⟨-, -, rfl⟩ := h
    exact frame_refl st
  · cases halloc : alloc_prop st with
    | mk fst snd =>
      rw [halloc] at h
      cases fst with
      | none => simp at h
      | some pidx =>
        simp only [Except.ok.injEq, Prod.mk.injEq] at h
        obtain ⟨-, -, rfl⟩ := h
        exact (alloc_prop_some halloc).2.2

theorem read_one_cell_ok {p : DProp} {v : Nat} (h : read_one_cell p = .ok v) :
    p.length / 4 = 1 ∧ v = cellAt p.bytes 0 := by
  unfold read_one_cell at h
  split at h
  · refine ⟨by assumption, ?_⟩
    injection h with h
    exact h.symm
  · simp at h

theorem phDec_head {p : DProp} {hh : Nat} (hd : phDec p hh) :
    p.name.headD 0 = 'p'.toNat ∨ p.name.headD 0 = 'l'.toNat := by
  rcases hd.1 with he | he
  · left; rw [he]; decide
  · right; rw [he]; decide

theorem check_special_ok {st : PState} {nidx curA curS : Nat} {p : DProp}
    {a' s' : Nat} {st' : PState}
    (h : check_for_special_prop st nidx curA curS p = .ok (a', s', st')) :
    (a', s') = applyCellsProp (curA, curS) p ∧ Frame st st' ∧
    ∀ hh, phDec p hh → (hh, nidx) ∈ st'.phWrites := by
  unfold check_for_special_prop at h
  simp only [] at h
  split_ifs at h with h1 h2 h3 h4 h5
  · -- fast-path shortcut: the name starts with none of '#', 'p', 'l'
    simp only [Except.ok.injEq, Prod.mk.injEq] at h
    obtain ⟨rfl, rfl, rfl⟩ := h
    refine ⟨?_, frame_refl st, ?_⟩
    · unfold applyCellsProp
      rw [if_neg, if_neg]
      · rintro ⟨he, -⟩
        exact h1.1 (by rw [he]; decide)
      · rintro ⟨he, -⟩
        exact h1.1 (by rw [he]; decide)
    · intro hh hd
      rcases phDec_head hd with hp | hp
      · exact absurd hp h1.2.1
      · exact absurd hp h1.2.2
  · -- "phandle"
    have hname : p.name = strBytes "phandle" := (strings_eq_iff _ _).mp h2.2
    cases hro : read_one_cell p with
    | error e => rw [hro] at h; cases h
    | ok handle =>
      rw [hro] at h
      simp only [] at h
      obtain ⟨hlen, rfl⟩ := read_one_cell_ok hro
      by_cases hlt : cellAt p.bytes 0 < st.nodeMax
      · rw [if_pos hlt] at h
        simp only [Except.ok.injEq, Prod.mk.injEq] at h
        obtain ⟨rfl, rfl, rfl⟩ := h
        refine ⟨?_, ?_, ?_⟩
        · unfold applyCellsProp
          rw [if_neg, if_neg]
          · rintro ⟨he, -⟩
            rw [hname] at he
            exact absurd he (by decide)
          · rintro ⟨he, -⟩
            rw [hname] at he
            exact absurd he (by decide)
        · refine ⟨rfl, rfl, rfl, rfl, rfl, rfl, rfl, rfl, rfl,
            [(cellAt p.bytes 0, nidx)], rfl, ?_⟩
          intro w hw
          rw [List.mem_singleton] at hw
          subst hw
          exact hlt
        · intro hh hd
          have : hh = cellAt p.bytes 0 := hd.2.2.symm
          subst this
          exact List.mem_append.mpr (.inr (List.mem_singleton.mpr rfl))
      · rw [if_neg hlt] at h
        cases h
  · -- "linux,phandle"
    have hname : p.name = strBytes "linux,phandle" := (strings_eq_iff _ _).mp h3.2
    cases hro : read_one_cell p with
    | error e => rw [hro] at h; cases h
    | ok handle =>
      rw [hro] at h
      simp only [] at h
      obtain ⟨hlen, rfl⟩ := read_one_cell_ok hro
      by_cases hlt : cellAt p.bytes 0 < st.nodeMax
      · rw [if_pos hlt] at h
        simp only [Except.ok.injEq, Prod.mk.injEq] at h
        obtain ⟨rfl, rfl, rfl⟩ := h
        refine ⟨?_, ?_, ?_⟩
        · unfold applyCellsProp
          rw [if_neg, if_neg]
          · rintro ⟨he, -⟩
            rw [hname] at he
            exact absurd he (by decide)
          · rintro ⟨he, -⟩
            rw [hname] at he
            exact absurd he (by decide)
        · refine ⟨rfl, rfl, rfl, rfl, rfl, rfl, rfl, rfl, rfl,
            [(cellAt p.bytes 0, nidx)], rfl, ?_⟩
          intro w hw
          rw [List.mem_singleton] at hw
          subst hw
          exact hlt
        · intro hh hd
          have : hh = cellAt p.bytes 0 := hd.2.2.symm
          subst this
          exact List.mem_append.mpr (.inr (List.mem_singleton.mpr rfl))
      · rw [if_neg hlt] at h
        cases h
  · -- "#address-cells"
    have hname : p.name = strBytes "#address-cells" := (strings_eq_iff _ _).mp h4.2
    cases hro : read_one_cell p with
    | error e => rw [hro] at h; cases h
    | ok cells =>
      rw [hro] at h
      simp only [] at h
      obtain ⟨hlen, rfl⟩ := read_one_cell_ok hro
      simp only [Except.ok.injEq, Prod.mk.injEq] at h
      obtain ⟨rfl, rfl, rfl⟩ := h
      refine ⟨?_, frame_refl st, ?_⟩
      · unfold applyCellsProp
        rw [if_pos ⟨hname, hlen⟩]
      · intro hh hd
        rcases hd.1 with he | he <;> rw [hname] at he <;> exact absurd he (by decide)
  · -- "#size-cells"
    have hname : p.name = strBytes "#size-cells" := (strings_eq_iff _ _).mp h5.2
    cases hro : read_one_cell p with
    | error e => rw [hro] at h; cases h
    | ok cells =>
      rw [hro] at h
      simp only [] at h
      obtain ⟨hlen, rfl⟩ := read_one_cell_ok hro
      simp only [Except.ok.injEq, Prod.mk.injEq] at h
      obtain ⟨rfl, rfl, rfl⟩ := h
      refine ⟨?_, frame_refl st, ?_⟩
      · unfold applyCellsProp
        rw [if_neg, if_pos ⟨hname, hlen⟩]
        rintro ⟨he, -⟩
        rw [hname] at he
        exact absurd he (by decide)
      · intro hh hd
        rcases hd.1 with he | he <;> rw [hname] at he <;> exact absurd he (by decide)
  · -- no special name matched
    simp only [Except.ok.injEq, Prod.mk.injEq] at h
    obtain ⟨rfl, rfl, rfl⟩ := h
    refine ⟨?_, frame_refl st, ?_⟩
    · unfold applyCellsProp
      rw [if_neg, if_neg]
      · rintro ⟨he, hlen⟩
        exact h5 ⟨by rw [he], (strings_eq_iff _ _).mpr he⟩
      · rintro ⟨he, hlen⟩
        exact h4 ⟨by rw [he], (strings_eq_iff _ _).mpr he⟩
    · intro hh hd
      rcases hd.1 with he | he
      · exact absurd ⟨by rw [he], (strings_eq_iff _ _).mpr he⟩ h2
      · exact absurd ⟨by rw [he], (strings_eq_iff _ _).mpr he⟩ h3

theorem parseStep_ok (fuel : Nat) :
    (∀ (st : PState) (off a s : Nat) (res : Option DNode × Nat × PState),
       parseStep fuel (.nodeCall st off a s) = .ok res →
       ParsedOk st a s res.1 res.2.2) ∧
    (∀ (st : PState) (off nidx : Nat) (nm : Bytes) (inhA inhS curA curS : Nat)
       (props : List DProp) (children : List DNode) (propsSeq : List DProp)
       (childSeq : List (DNode × List DProp)) (res : Option DNode × Nat × PState),
       parseStep fuel (.loopCall st off nidx nm inhA inhS curA curS props children
         propsSeq childSeq) = .ok res →
       (curA, curS) = foldCells (inhA, inhS) propsSeq →
       children = (childSeq.map Prod.fst).reverse →
       props = propsSeq.reverse →
       (∀ cp ∈ childSeq, TreeOk cp.1 ∧
          (cp.1.inhA, cp.1.inhS) = foldCells (inhA, inhS) cp.2 ∧
          ∃ suf, propsSeq = cp.2 ++ suf) →
       (∀ cp ∈ childSeq, WritesLinked st cp.1) →
       (∀ p ∈ propsSeq, ∀ hh, phDec p hh → (hh, nidx) ∈ st.phWrites) →
       Frame st res.2.2 ∧
       ∀ n, res.1 = some n → n.inhA = inhA ∧ n.inhS = inhS ∧ TreeOk n ∧
         WritesLinked res.2.2 n) := by
  induction fuel with
  | zero =>
    constructor
    · intro st off a s res h
      cases h
    · intro st off nidx nm inhA inhS curA curS props children propsSeq childSeq res h
      cases h
  | succ fuel ih =>
    obtain ⟨ihN, ihL⟩ := ih
    constructor
    · -- parse_node entry
      intro st off a s res h
      simp only [parseStep] at h
      by_cases htok : cellAt st.structs off ≠ 1
      · rw [if_pos htok] at h
        injection h with h
        subst h
        exact ⟨frame_refl st, fun n hn => by cases hn⟩
      · rw [if_neg htok] at h
        cases halloc : alloc_node st with
        | mk ores st1 =>
          rw [halloc] at h
          cases ores with
          | none => cases h
          | some nidx =>
            simp only [] at h
            obtain ⟨-, -, hfr1⟩ := alloc_node_some halloc
            have hmain := ihL st1 _ nidx _ a s a s [] [] [] [] res h rfl rfl rfl
              (fun cp hcp => by cases hcp) (fun cp hcp => by cases hcp)
              (fun p hp => by cases hp)
            exact ⟨frame_trans hfr1 hmain.1, hmain.2⟩
    · -- the token loop
      intro st off nidx nm inhA inhS curA curS props children propsSeq childSeq res h
        hfold hch hpr hcs hcw hpw
      simp only [parseStep] at h
      by_cases hoff : off < st.cellCount
      · rw [if_pos hoff] at h
        by_cases ht2 : cellAt st.structs off = 2
        · -- END_NODE: the node is finished
          rw [if_pos ht2] at h
          injection h with h
          subst h
          refine ⟨frame_refl st, ?_⟩
          intro n hn
          injection hn with hn
          subst hn
          refine ⟨rfl, rfl, ?_, ?_⟩
          · apply treeOk_mk
            · refine ⟨hch, hpr, hfold, ?_⟩
              intro c pre hcp
              obtain ⟨-, hfoldc, hsuf⟩ := hcs (c, pre) hcp
              exact ⟨hfoldc, hsuf⟩
            · intro c hc
              rw [hch, List.mem_reverse] at hc
              obtain ⟨cp, hcp, hcpe⟩ := List.mem_map.mp hc
              exact hcpe ▸ (hcs cp hcp).1
          · intro m hm p hp hh hd
            rw [allNodes_mk] at hm
            rcases List.mem_cons.mp hm with hm | hm
            · subst hm
              have hp2 : p ∈ props := hp
              rw [hpr, List.mem_reverse] at hp2
              exact hpw p hp2 hh hd
            · obtain ⟨c, hc, hmc⟩ := List.mem_flatMap.mp hm
              rw [hch, List.mem_reverse] at hc
              obtain ⟨cp, hcp, hcpe⟩ := List.mem_map.mp hc
              rw [← hcpe] at hmc
              exact hcw cp hcp m hmc p hp hh hd
        · rw [if_neg ht2] at h
          by_cases ht1 : cellAt st.structs off = 1
          · -- BEGIN_NODE: recursive child parse
            rw [if_pos ht1] at h
            cases hrec : parseStep fuel (.nodeCall st off curA curS) with
            | error e => rw [hrec] at h; cases h
            | ok r =>
              obtain ⟨childOpt, off1, st1⟩ := r
              rw [hrec] at h
              cases childOpt with
              | none =>
                simp only [] at h
                have hfr1 : Frame st st1 := (ihN st off curA curS _ hrec).1
                have hmain := ihL st1 off1 nidx nm inhA inhS curA curS props children
                  propsSeq childSeq res h hfold hch hpr hcs
                  (fun cp hcp => writesLinked_mono hfr1 (hcw cp hcp))
                  (fun p hp hh hd => frame_mem_writes hfr1 (hpw p hp hh hd))
                exact ⟨frame_trans hfr1 hmain.1, hmain.2⟩
              | some child =>
                simp only [] at h
                have hpo := ihN st off curA curS _ hrec
                have hfr1 : Frame st st1 := hpo.1
                obtain ⟨hcinhA, hcinhS, hcT, hcW⟩ := hpo.2 child rfl
                have hmain := ihL st1 off1 nidx nm inhA inhS curA curS props
                  (child :: children) propsSeq (childSeq ++ [(child, propsSeq)]) res h
                  hfold
                  (by simp [List.map_append, List.reverse_append, hch])
                  hpr
                  (by
                    intro cp hcp
                    rcases List.mem_append.mp hcp with hcp | hcp
                    · obtain ⟨hT, hfoldc, suf, hsuf⟩ := hcs cp hcp
                      exact ⟨hT, hfoldc, suf, hsuf⟩
                    · rw [List.mem_singleton] at hcp
                      subst hcp
                      exact ⟨hcT, by rw [hcinhA, hcinhS]; exact hfold,
                        [], (List.append_nil _).symm⟩)
                  (by
                    intro cp hcp
                    rcases List.mem_append.mp hcp with hcp | hcp
                    · exact writesLinked_mono hfr1 (hcw cp hcp)
                    · rw [List.mem_singleton] at hcp
                      subst hcp
                      exact hcW)
                  (fun p hp hh hd => frame_mem_writes hfr1 (hpw p hp hh hd))
                exact ⟨frame_trans hfr1 hmain.1, hmain.2⟩
          · rw [if_neg ht1] at h
            by_cases ht3 : cellAt st.structs off = 3
            · -- PROP: attach a property and recognize the special ones
              rw [if_pos ht3] at h
              cases hpp : parse_prop st off with
              | error e => rw [hpp] at h; cases h
              | ok r =>
                obtain ⟨propOpt, off1, st1⟩ := r
                rw [hpp] at h
                cases propOpt with
                | none =>
                  simp only [] at h
                  have hfr1 : Frame st st1 := parse_prop_ok hpp
                  have hmain := ihL st1 off1 nidx nm inhA inhS curA curS props children
                    propsSeq childSeq res h hfold hch hpr hcs
                    (fun cp hcp => writesLinked_mono hfr1 (hcw cp hcp))
                    (fun p hp hh hd => frame_mem_writes hfr1 (hpw p hp hh hd))
                  exact ⟨frame_trans hfr1 hmain.1, hmain.2⟩
                | some p =>
                  simp only [] at h
                  have hfr1 : Frame st st1 := parse_prop_ok hpp
                  cases hcsp : check_for_special_prop st1 nidx curA curS p with
                  | error e => rw [hcsp] at h; cases h
                  | ok r2 =>
                    obtain ⟨curA1, curS1, st2⟩ := r2
                    rw [hcsp] at h
                    simp only [] at h
                    obtain ⟨happly, hfr2, hwr⟩ := check_special_ok hcsp
                    have hfr12 : Frame st st2 := frame_trans hfr1 hfr2
                    have hmain := ihL st2 off1 nidx nm inhA inhS curA1 curS1 (p :: props)
                      children (propsSeq ++ [p]) childSeq res h
                      (by
                        show (curA1, curS1) =
                          List.foldl applyCellsProp (inhA, inhS) (propsSeq ++ [p])
                        rw [List.foldl_append]
                        simp only [List.foldl_cons, List.foldl_nil]
                        show (curA1, curS1) =
                          applyCellsProp (foldCells (inhA, inhS) propsSeq) p
                        rw [← hfold]
                        exact happly)
                      hch
                      (by simp [List.reverse_append, hpr])
                      (by
                        intro cp hcp
                        obtain ⟨hT, hfoldc, suf, hsuf⟩ := hcs cp hcp
                        exact ⟨hT, hfoldc, suf ++ [p], by rw [hsuf, List.append_assoc]⟩)
                      (fun cp hcp => writesLinked_mono hfr12 (hcw cp hcp))
                      (by
                        intro q hq hh hd
                        rcases List.mem_append.mp hq with hq | hq
                        · exact frame_mem_writes hfr12 (hpw q hq hh hd)
                        · rw [List.mem_singleton] at hq
                          subst hq
                          exact hwr hh hd)
                    exact ⟨frame_trans hfr12 hmain.1, hmain.2⟩
            · -- any other token: advance one cell
              rw [if_neg ht3] at h
              exact ihL st (off + 1) nidx nm inhA inhS curA curS props children
                propsSeq childSeq res h hfold hch hpr hcs hcw hpw
      · -- structure block exhausted without END_NODE
        rw [if_neg hoff] at h
        injection h with h
        subst h
        refine ⟨?_, fun n hn => by cases hn⟩
        unfold emitError
        split
        · exact ⟨rfl, rfl, rfl, rfl, rfl, rfl, rfl, rfl, rfl, [], by simp, by simp⟩
        · exact frame_refl st

theorem writesLinked_ext {st st' : PState} {n : DNode}
    (hext : ∃ ws, st'.phWrites = st.phWrites ++ ws) (h : WritesLinked st n) :
    WritesLinked st' n := by
  obtain ⟨ws, hws⟩ := hext
  intro m hm p hp hh hd
  rw [hws]
  exact List.mem_append.mpr (.inl (h m hm p hp hh hd))

theorem init_loop_ok (fuel : Nat) :
    ∀ (st : PState) (i : Nat) (st' : PState), init_loop fuel st i = .ok st' →
      st'.nodeMax = st.nodeMax ∧
      (∃ ws, st'.phWrites = st.phWrites ++ ws ∧ ∀ w ∈ ws, w.1 < st.nodeMax) ∧
      ∃ ns, st'.rootSeq = st.rootSeq ++ ns ∧ st'.rootsL = ns.reverse ++ st.rootsL ∧
        ∀ n ∈ ns, n.inhA = 2 ∧ n.inhS = 1 ∧ TreeOk n ∧ WritesLinked st' n := by
  induction fuel with
  | zero => intro st i st' h; cases h
  | succ fuel ih =>
    intro st i st' h
    simp only [init_loop] at h
    by_cases hi : i < st.cellCount
    · rw [if_pos hi] at h
      by_cases ht : cellAt st.structs i ≠ 1
      · rw [if_pos ht] at h
        exact ih st (i + 1) st' h
      · rw [if_neg ht] at h
        cases hrec : parse_node fuel st i 2 1 with
        | error e => rw [hrec] at h; cases h
        | ok r =>
          obtain ⟨nopt, i1, st1⟩ := r
          rw [hrec] at h
          cases nopt with
          | none =>
            simp only [] at h
            obtain ⟨-, -, -, -, -, hmax1, -, -, -, ws1, hws1, hr1⟩ :=
              ((parseStep_ok fuel).1 st i 2 1 _ hrec).1
            obtain ⟨hmax2, ⟨ws2, hws2, hr2⟩, ns, hseq, hroots, hns⟩ := ih st1 (i1 + 1) st' h
            obtain ⟨-, -, -, hroots1, hseq1, -, -, -, -, -, -, -⟩ :=
              ((parseStep_ok fuel).1 st i 2 1 _ hrec).1
            refine ⟨hmax2.trans hmax1, ⟨ws1 ++ ws2, ?_, ?_⟩, ns, ?_, ?_, hns⟩
            · rw [hws2, hws1, List.append_assoc]
            · intro w hw
              rcases List.mem_append.mp hw with hw | hw
              · exact hr1 w hw
              · have := hr2 w hw
                rwa [hmax1] at this
            · rw [hseq, hseq1]
            · rw [hroots, hroots1]
          | some n =>
            simp only [] at h
            have hpo := (parseStep_ok fuel).1 st i 2 1 _ hrec
            obtain ⟨-, -, -, hroots1, hseq1, hmax1, -, -, -, ws1, hws1, hr1⟩ := hpo.1
            obtain ⟨hinh2, hinh1, hT, hW⟩ := hpo.2 n rfl
            obtain ⟨hmax2, ⟨ws2, hws2, hr2⟩, ns, hseq, hroots, hns⟩ := ih _ (i1 + 1) st' h
            simp only [] at hmax2 hws2 hseq hroots
            refine ⟨hmax2.trans hmax1, ⟨ws1 ++ ws2, ?_, ?_⟩, n :: ns, ?_, ?_, ?_⟩
            · rw [hws2, hws1, List.append_assoc]
            · intro w hw
              rcases List.mem_append.mp hw with hw | hw
              · exact hr1 w hw
              · have := hr2 w hw
                rwa [hmax1] at this
            · rw [hseq, hseq1, List.append_assoc]
              rfl
            · rw [hroots, hroots1]
              rw [List.reverse_cons, List.append_assoc]
              rfl
            · intro m hm
              rcases List.mem_cons.mp hm with hm | hm
              · subst hm
                refine ⟨hinh2, hinh1, hT, ?_⟩
                refine writesLinked_ext ⟨ws2, ?_⟩ hW
                rw [hws2]
              · exact hns m hm
    · rw [if_neg hi] at h
      injection h with h
      subst h
      exact ⟨rfl, ⟨[], by simp, by simp⟩, [], by simp, by simp, fun n hn => by cases hn⟩

theorem free_buffers_rootsL (st : PState) : (free_buffers st).rootsL = st.rootsL := by
  unfold free_buffers emitError
  split
  · split <;> rfl
  · rfl

theorem emitError_rootsL (st : PState) (msg : String) :
    (emitError st msg).rootsL = st.rootsL := by
  unfold emitError
  split <;> rfl

theorem dtb_init_ok {fuel : Nat} {b : Blob} {ops : Ops} {st0 st : PState}
    (h : dtb_init fuel b ops st0 = .ok st)
    (hmal : ops.hasMalloc = true) (hmag : b.magic = 3490578157) :
    (∀ w ∈ st.phWrites, w.1 < st.nodeMax) ∧
    st.rootsL = st.rootSeq.reverse ++ st0.rootsL ∧
    ∀ n ∈ st.rootSeq, n.inhA = 2 ∧ n.inhS = 1 ∧ TreeOk n ∧ WritesLinked st n := by
  unfold dtb_init at h
  rw [hmal] at h
  simp only [Bool.true_eq_false, if_false] at h
  rw [if_neg (fun hc => hc hmag)] at h
  obtain ⟨hmax, ⟨ws, hws, hr⟩, ns, hseq, hroots, hns⟩ := init_loop_ok fuel _ 0 st h
  simp only [alloc_buffers] at hmax hws hr hseq hroots
  have hroots0 :
      (if st0.hasBuff then
          free_buffers
            { st0 with
              ops := ops, structs := b.structs, cellCount := b.sizeStructs / 4,
              strings := b.strings }
        else
          { st0 with
            ops := ops, structs := b.structs, cellCount := b.sizeStructs / 4,
            strings := b.strings }).rootsL = st0.rootsL := by
    split
    · rw [free_buffers_rootsL]
    · rfl
  refine ⟨?_, ?_, ?_⟩
  · intro w hw
    rw [hws] at hw
    simp only [List.nil_append] at hw
    have := hr w hw
    rwa [← hmax] at this
  · rw [hroots, hseq]
    simp only [List.nil_append]
    rw [hroots0]
  · intro n hn
    rw [hseq] at hn
    simp only [List.nil_append] at hn
    exact hns n hn

theorem dtb_init_nodes_ok {fuel : Nat} {b : Blob} {ops : Ops} {st0 st : PState}
    (h : dtb_init fuel b ops st0 = .ok st) (h0 : st0.rootsL = []) :
    ∀ r ∈ st.rootsL, r.inhA = 2 ∧ r.inhS = 1 ∧ TreeOk r ∧ WritesLinked st r ∧
      ∀ w ∈ st.phWrites, w.1 < st.nodeMax := by
  by_cases hmal : ops.hasMalloc = true
  · by_cases hmag : b.magic = 3490578157
    · obtain ⟨hrange, hroots, hns⟩ := dtb_init_ok h hmal hmag
      intro r hr
      rw [hroots, h0, List.append_nil, List.mem_reverse] at hr
      obtain ⟨h2, h1, hT, hW⟩ := hns r hr
      exact ⟨h2, h1, hT, hW, hrange⟩
    · unfold dtb_init at h
      rw [hmal] at h
      simp only [Bool.true_eq_false, if_false] at h
      rw [if_pos hmag] at h
      injection h with h
      subst h
      intro r hr
      rw [emitError_rootsL] at hr
      have : ({ st0 with ops := ops } : PState).rootsL = [] := h0
      rw [this] at hr
      cases hr
  · unfold dtb_init at h
    simp only [Bool.not_eq_true] at hmal
    rw [hmal] at h
    simp only [if_true] at h
    injection h with h
    subst h
    intro r hr
    rw [emitError_rootsL] at hr
    have : ({ st0 with ops := ops } : PState).rootsL = [] := h0
    rw [this] at hr
    cases hr

theorem dtb_get_prop_go_eq : ∀ (l : List DProp) (i : Nat), dtb_get_prop_go l i = l.get? i := by
  intro l
  induction l with
  | nil => intro i; cases i <;> rfl
  | cons p rest ih => intro i; cases i with
    | zero => rfl
    | succ j => exact ih j

theorem mem_allNodes_child {n c : DNode} (h : c ∈ n.children) : c ∈ allNodes n := by
  cases n
  rw [allNodes_mk]
  exact .tail _ (List.mem_flatMap.mpr ⟨c, h, self_mem_allNodes c⟩)

theorem applyWrites_eq_lastKeyed (ws : List (Nat × Nat)) (h : Nat) :
    applyWrites ws h = lastKeyed ws h := by
  induction ws using List.reverseRecOn with
  | nil => rfl
  | append_singleton ws w ih =>
    unfold applyWrites lastKeyed
    unfold applyWrites lastKeyed at ih
    rw [List.foldl_append, List.filterMap_append, List.getLast?_append]
    simp only [List.foldl_cons, List.foldl_nil, List.filterMap_cons, List.filterMap_nil]
    by_cases hw : w.1 = h
    · simp [hw]
    · have hw' : ¬ h = w.1 := fun e => hw e.symm
      simp [hw, hw', ih]

/-- Claim C7: for every node of a tree built by a completed fresh
`dtb_init`, the child chain walked by `dtb_get_child`/`dtb_get_sibling` is
exactly the reverse of the blob order of the children's BEGIN_NODE tokens
(the ghost `childSeq`), and the property chain indexed by `dtb_get_prop` is
exactly the reverse of the properties' blob order (the ghost `propsSeq`). -/
theorem claim_C7 (fuel : Nat) (b : Blob) (ops : Ops) (st0 st : PState)
    (hinit : dtb_init fuel b ops st0 = .ok st) (h0 : st0.rootsL = []) :
    ∀ r ∈ st.rootsL, ∀ m ∈ allNodes r,
      m.children = (m.childSeq.map Prod.fst).reverse ∧
      m.props = m.propsSeq.reverse ∧
      (∀ i, dtb_get_prop (some m) i = m.props.get? i) ∧
      dtb_get_child (some m) = m.children.head? := by
  intro r hr m hm
  obtain ⟨-, -, hT, -, -⟩ := dtb_init_nodes_ok hinit h0 r hr
  obtain ⟨hch, hpr, -, -⟩ := hT m hm
  exact ⟨hch, hpr, fun i => dtb_get_prop_go_eq m.props i, rfl⟩

/-- Claim C7, witness: node `A` of the `blobW` parse. -/
theorem claim_C7_witness :
    nodeA.children = (nodeA.childSeq.map Prod.fst).reverse ∧
    nodeA.props = nodeA.propsSeq.reverse ∧
    dtb_get_prop (some nodeA) 0 = nodeA.props.get? 0 ∧
    dtb_get_child (some nodeA) = nodeA.children.head? := by
  have h := claim_C7 64 blobW opsAll pstate0 stW rfl rfl nodeA
    (by
      have e : stW.rootsL = [nodeA] := rfl
      rw [e]
      exact List.mem_singleton_self _)
    nodeA (self_mem_allNodes nodeA)
  exact ⟨h.1, h.2.1, h.2.2.1 0, h.2.2.2⟩

/-- Claim C8: every node of a tree built by a completed fresh `dtb_init`
has final `addr_cells`/`size_cells` equal to its inherited values overridden
by its own `#address-cells`/`#size-cells` properties in blob order; every
top-level node inherits the defaults (2, 1); and every child was created
with exactly the values its parent held at the child's BEGIN_NODE — the
parent's inherited values overridden by the parent properties parsed before
that child (a prefix of the parent's property sequence). -/
theorem claim_C8 (fuel : Nat) (b : Blob) (ops : Ops) (st0 st : PState)
    (hinit : dtb_init fuel b ops st0 = .ok st) (h0 : st0.rootsL = []) :
    ∀ r ∈ st.rootsL, r.inhA = 2 ∧ r.inhS = 1 ∧
      ∀ m ∈ allNodes r,
        (m.addr_cells, m.size_cells) = foldCells (m.inhA, m.inhS) m.propsSeq ∧
        ∀ cp ∈ m.childSeq,
          (cp.1.inhA, cp.1.inhS) = foldCells (m.inhA, m.inhS) cp.2 ∧
          ∃ suf, m.propsSeq = cp.2 ++ suf := by
  intro r hr
  obtain ⟨h2, h1, hT, -, -⟩ := dtb_init_nodes_ok hinit h0 r hr
  refine ⟨h2, h1, ?_⟩
  intro m hm
  obtain ⟨-, -, hcells, hcs⟩ := hT m hm
  exact ⟨hcells, fun cp hcp => (hcs cp.1 cp.2 hcp)⟩

/-- Claim C8, witness: in the `blobW` parse, the root `A` inherits the
defaults (2, 1), its final `addr_cells` reflects its own
`#address-cells = 3` property, and its child `B` was created with the
overridden value 3 — the value `A` held when the `B` BEGIN_NODE was parsed. -/
theorem claim_C8_witness :
    nodeA.inhA = 2 ∧ nodeA.inhS = 1 ∧
    (nodeA.addr_cells, nodeA.size_cells) = foldCells (nodeA.inhA, nodeA.inhS) nodeA.propsSeq ∧
    (nodeB.inhA, nodeB.inhS) =
      foldCells (nodeA.inhA, nodeA.inhS) (nodeA.childSeq.headD (dummyNode, [])).2 ∧
    nodeA.addr_cells = 3 ∧ nodeB.inhA = 3 ∧ nodeB.inhS = 1 := by
  have h := claim_C8 64 blobW opsAll pstate0 stW rfl rfl nodeA
    (by
      have e : stW.rootsL = [nodeA] := rfl
      rw [e]
      exact List.mem_singleton_self _)
  have hm := h.2.2 nodeA (self_mem_allNodes nodeA)
  have hcp := hm.2 (nodeB, (nodeA.childSeq.headD (dummyNode, [])).2)
    (by
      have e : nodeA.childSeq = [(nodeB, (nodeA.childSeq.headD (dummyNode, [])).2)] := rfl
      rw [e]
      exact List.mem_singleton_self _)
  exact ⟨h.1, h.2.1, hm.1, hcp.1, rfl, rfl, rfl⟩

/-- Claim C3 (amended): every `phandle`/`linux,phandle` property of a node
parsed by a completed fresh `dtb_init` has its phandle-table store on
record (at an index the parse checked against the table bound), and
`dtb_find_phandle h` returns that node whenever its store is the last
store to index `h` — i.e. when no phandle property parsed later in the
blob also decodes to `h`. -/
theorem claim_C3 (fuel : Nat) (b : Blob) (ops : Ops) (st0 st : PState)
    (hinit : dtb_init fuel b ops st0 = .ok st) (h0 : st0.rootsL = []) :
    ∀ r ∈ st.rootsL, ∀ m ∈ allNodes r, ∀ p ∈ m.props, ∀ hh, phDec p hh →
      (hh, m.idx) ∈ st.phWrites ∧
      (lastKeyed st.phWrites hh = some m.idx → dtb_find_phandle st hh = some m.idx) := by
  intro r hr m hm p hp hh hd
  obtain ⟨-, -, -, hW, hrange⟩ := dtb_init_nodes_ok hinit h0 r hr
  have hmem : (hh, m.idx) ∈ st.phWrites := hW m hm p hp hh hd
  refine ⟨hmem, ?_⟩
  intro hlast
  have hlt : hh < st.nodeMax := hrange _ hmem
  unfold dtb_find_phandle
  rw [if_pos hlt, applyWrites_eq_lastKeyed, hlast]

/-- Claim C3, witness: node `B` of the `blobW` parse declares `phandle = 1`,
its store is the last store to index 1, and `dtb_find_phandle 1` returns
`B` (index 1). -/
theorem claim_C3_witness :
    (1, nodeB.idx) ∈ stW.phWrites ∧ dtb_find_phandle stW 1 = some nodeB.idx := by
  have h := claim_C3 64 blobW opsAll pstate0 stW rfl rfl nodeA
    (by
      have e : stW.rootsL = [nodeA] := rfl
      rw [e]
      exact List.mem_singleton_self _)
    nodeB
    (mem_allNodes_child (by
      have e : nodeA.children = [nodeB] := rfl
      rw [e]
      exact List.mem_singleton_self _))
    (nodeB.props.headD dummyProp)
    (by
      have e : nodeB.props = [nodeB.props.headD dummyProp] := rfl
      rw [e]
      exact List.mem_singleton_self _)
    1 ⟨Or.inl rfl, rfl, rfl⟩
  exact ⟨h.1, h.2 rfl⟩

/-- Claim C9 (amended): a completed `dtb_init` (with good magic and malloc
supplied) links the top-level nodes as a sibling chain whose head is the
*last* top-level node encountered: the `state.root` chain is the reverse of
the encounter order `rootSeq`, prepended to whatever root chain existed
before the call. -/
theorem claim_C9 (fuel : Nat) (b : Blob) (ops : Ops) (st0 st : PState)
    (hinit : dtb_init fuel b ops st0 = .ok st)
    (hmal : ops.hasMalloc = true) (hmag : b.magic = 3490578157) :
    st.rootsL = st.rootSeq.reverse ++ st0.rootsL :=
  (dtb_init_ok hinit hmal hmag).2.1

/-- Claim C9, witness: the two-top-level-node blob, parsed fresh: the root
chain is the reverse of the encounter order. -/
theorem claim_C9_witness :
    stC9.rootsL = stC9.rootSeq.reverse ++ pstate0.rootsL :=
  claim_C9 64 blobC9 opsAll pstate0 stC9 rfl rfl rfl
